import Mathlib

/-!
Shallow embedding of the cargo-tracker backend (Sansi-28/cargo-tracker-backend).

Source files embedded here:
* `src/models/Shipment.js` — the `calculateSimpleETA` instance method and the
  `pre('save')` middleware that rebuilds the `route` array (origin, surviving
  intermediate waypoints, destination, then a first-occurrence dedup by name)
  and recomputes `estimatedETA`.
* `src/controllers/shipmentController.js` — `createShipment`,
  `updateShipmentLocation`, `getShipmentById`, `getShipmentETA`, including the
  by-id lookup flow (`findById`, `trackingId` fallback, and the `CastError`
  catch branches) and the status-transition logic on a location update.

JavaScript values are modelled as follows: strings are `String`, `Date`
instants are `Nat` milliseconds, numbers that are only stored (coordinates)
are `Int`, absent/undefined fields are `Option`, a thrown exception is an
`Except` error.  JS truthiness of a possibly-absent string (`if (x.name)`)
is `truthyName`: present and non-empty.
-/

set_option linter.unusedVariables false

/-- A location record as it flows through the pre-save hook and the ETA
calculation (schema `LocationSchema`): `name` may be absent (the schema
requires it, but the hook code guards every access), plus optional
coordinates and an optional timestamp. -/
structure RawLoc where
  name : Option String
  latitude : Option Int := none
  longitude : Option Int := none
  timestamp : Option Nat := none
deriving DecidableEq

/-- JS truthiness of a possibly-absent string: defined and non-empty
(models `if (loc.name)` / `if (currentLocName)`). -/
def truthyName : Option String → Bool
  | some s => s != ""
  | none => false

/-- The `status` enum of `ShipmentSchema`:
`'Pending' | 'In Transit' | 'Delayed' | 'Delivered' | 'Cancelled'`. -/
inductive Status where
  | Pending
  | InTransit
  | Delayed
  | Delivered
  | Cancelled
deriving DecidableEq

/-- Error outcomes surfaced by the controller handlers. -/
inductive Err where
  | ValidationError
  | NotFound
  | InvalidState
  | CastError
  | ServerError
deriving DecidableEq

/-! ## Route rebuild (`ShipmentSchema.pre('save')`, src/models/Shipment.js 184-241) -/

/-- Step 2 of the rebuild: convert each raw intermediate entry to a plain
object, `loc.toObject ? loc.toObject() : { ...loc }`.  A `null`/`undefined`
entry makes the property access `loc.toObject` throw a `TypeError`, which is
modelled as the error case. -/
def toPlain : List (Option RawLoc) → Except String (List RawLoc)
  | [] => .ok []
  | none :: _ => .error "TypeError: cannot read properties of null"
  | some x :: rest => (toPlain rest).map (x :: ·)

/-- The filter applied to intermediate points:
`loc && loc.name && (!originObj || loc.name !== originObj.name) &&
(!destObj || loc.name !== destObj.name)` (after `toPlain`, `loc` itself is
always a truthy object). -/
def interFilter (o d : Option RawLoc) (x : RawLoc) : Bool :=
  truthyName x.name
    && (match o with | none => true | some ob => x.name != ob.name)
    && (match d with | none => true | some db => x.name != db.name)

/-- Step 1 of the rebuild: `if (originObj) finalRoute.push({...originObj})`. -/
def startRoute : Option RawLoc → List RawLoc
  | none => []
  | some ob => [ob]

/-- Step 3 of the rebuild: append the destination unless the last accumulated
point already carries the same name
(`if (!lastPoint || lastPoint.name !== destObj.name) finalRoute.push(...)`). -/
def appendDest (d : Option RawLoc) (r1 : List RawLoc) : List RawLoc :=
  match d with
  | none => r1
  | some db =>
    match r1.getLast? with
    | none => r1 ++ [db]
    | some lp => if lp.name == db.name then r1 else r1 ++ [db]

/-- The guard of step 4's dedup loop:
`loc && loc.name && !names.has(loc.name)`. -/
def keepLoc (x : RawLoc) (seen : List String) : Bool :=
  truthyName x.name && !(seen.contains (x.name.getD ""))

/-- Step 4 of the rebuild: one pass keeping the first occurrence of every
(truthy) name; entries whose name is absent or empty are skipped. -/
def dedupAux : List RawLoc → List String → List RawLoc
  | [], _ => []
  | x :: rest, seen =>
    if keepLoc x seen then x :: dedupAux rest (x.name.getD "" :: seen)
    else dedupAux rest seen

/-- The set of names accumulated by the dedup pass over a list (mirrors the
evolution of the `names` set in step 4). -/
def seenAfter : List RawLoc → List String → List String
  | [], seen => seen
  | x :: rest, seen =>
    if keepLoc x seen then seenAfter rest (x.name.getD "" :: seen)
    else seenAfter rest seen

/-- Steps 1-3 of the rebuild, before the dedup pass: origin, then the
surviving intermediates, then (conditionally) the destination. -/
def preDedup (o d : Option RawLoc) (m : List RawLoc) : List RawLoc :=
  appendDest d (startRoute o ++ m)

/-- The whole route rebuild of the pre-save hook
(src/models/Shipment.js 184-238): plain-object conversion of the raw
intermediate entries (which throws on `null`), the origin/destination name
filter, anchoring, and the first-occurrence dedup by name. -/
def rebuildRoute (o d : Option RawLoc) (ints : List (Option RawLoc)) :
    Except String (List RawLoc) :=
  (toPlain ints).map fun ps => dedupAux (preDedup o d (ps.filter (interFilter o d))) []

/-! ## ETA calculation (`calculateSimpleETA`, src/models/Shipment.js 95-154) -/

/-- `averageTimePerLegMs = 2 * 24 * 60 * 60 * 1000` — the fixed two-day
per-leg duration. -/
def legMs : Nat := 2 * 24 * 60 * 60 * 1000

/-- The scanning loop of `calculateSimpleETA`: the first index `i` (counting
from `k`) with `route[i]?.name === currentLocName`. -/
def findLegIdx : List RawLoc → String → Nat → Option Nat
  | [], _, _ => none
  | x :: rest, s, k => if x.name == some s then some k else findLegIdx rest s (k + 1)

/-- `ShipmentSchema.methods.calculateSimpleETA`, with the current time `now`
passed in (`new Date()` in the source) and the previously stored
`this.estimatedETA` passed as `storedETA`. -/
def calculateSimpleETA (route : List RawLoc) (currentLocation : Option RawLoc)
    (status : Status) (storedETA : Option Nat) (now : Nat) : Option Nat :=
  if status = .Delivered ∨ route.length < 2 then
    if status = .Delivered then none else storedETA
  else
    let currentLocName := currentLocation.bind RawLoc.name
    let remainingLegs :=
      match currentLocName with
      | some s =>
        if s ≠ "" then
          match findLegIdx route s 0 with
          | some i => route.length - 1 - i
          | none => route.length - 1
        else route.length - 1
      | none => route.length - 1
    let remainingLegs := Nat.max 0 remainingLegs
    if remainingLegs = 0 then some now
    else some (now + remainingLegs * legMs)

/-! ## Status transition on a location update
(src/controllers/shipmentController.js 182-196) -/

/-- The status computation of `updateShipmentLocation` for a non-Delivered
shipment: first `Pending → 'In Transit'`, then the destination-name check
(`shipment.destination?.name === locationName`) forcing `Delivered` (the
second component records whether `actualDeliveryDate` is set now), else
`'In Transit'` unless the status is `Delayed` or `Cancelled`. -/
def statusAfterUpdate (cur : Status) (destName : Option String)
    (locationName : String) : Status × Bool :=
  let s1 := if cur = .Pending then Status.InTransit else cur
  if destName == some locationName then (Status.Delivered, true)
  else if s1 ≠ Status.Delayed ∧ s1 ≠ Status.Cancelled then (Status.InTransit, false)
  else (s1, false)

/-! ## Shipment documents and controller operations -/

/-- The shipment document fields relevant to the claims (schema
`ShipmentSchema` plus the `_id` primary key, written `objId`). -/
structure Shipment where
  objId : String
  trackingId : String
  containerId : String
  origin : Option RawLoc
  destination : Option RawLoc
  route : List RawLoc
  currentLocation : Option RawLoc
  estimatedETA : Option Nat
  status : Status
  actualDeliveryDate : Option Nat
deriving DecidableEq

/-- `createShipment` (src/controllers/shipmentController.js 52-142) composed
with the pre-save hook on a new document: request validation
(`!containerId || !origin?.name || !destination?.name`), initial
`currentLocation = { ...origin, timestamp: now }`, the route rebuild with the
timestamp-patched origin, and the initial ETA computation.  `objId` and
`tid` stand for the generated `_id` / `trackingId`; the caller-supplied
`status` defaults to `Pending`. -/
def createShipment (objId tid containerId : String)
    (origin destination : Option RawLoc)
    (intermediateRoutePoints : List (Option RawLoc)) (status : Option Status)
    (now : Nat) : Except Err Shipment :=
  if containerId = "" ∨ truthyName (origin.bind RawLoc.name) = false ∨
      truthyName (destination.bind RawLoc.name) = false then
    .error .ValidationError
  else
    match origin, destination with
    | some o, some d =>
      match rebuildRoute (some { o with timestamp := some now }) (some d)
          intermediateRoutePoints with
      | .error _ => .error .ServerError
      | .ok route =>
        .ok { objId := objId, trackingId := tid, containerId := containerId,
              origin := some o, destination := some d, route := route,
              currentLocation := some { o with timestamp := some now },
              estimatedETA := calculateSimpleETA route
                (some { o with timestamp := some now }) (status.getD .Pending)
                none now,
              status := status.getD .Pending, actualDeliveryDate := none }
    | _, _ => .error .ValidationError

/-- The new `currentLocation` document built by `updateShipmentLocation`
(src/controllers/shipmentController.js 175-180). -/
def mkCurrentLoc (locationName : String) (latitude longitude : Option Int)
    (now : Nat) : RawLoc :=
  { name := some locationName, latitude := latitude, longitude := longitude,
    timestamp := some now }

/-- The per-document part of `updateShipmentLocation`
(src/controllers/shipmentController.js 167-199) composed with the pre-save
hook: the `Delivered` guard, the new `currentLocation`, the status
transition, `actualDeliveryDate` on delivery, and the ETA recomputation
triggered by the modified `currentLocation` (the route rebuild is skipped on
this path because neither `origin`, `destination` nor `route` is modified). -/
def updateShipmentLocation (sh : Shipment) (locationName : String)
    (latitude longitude : Option Int) (now : Nat) : Except Err Shipment :=
  if sh.status = .Delivered then .error .InvalidState
  else
    let cl := mkCurrentLoc locationName latitude longitude now
    let sb := statusAfterUpdate sh.status (sh.destination.bind RawLoc.name) locationName
    .ok { sh with
          currentLocation := some cl,
          status := sb.1,
          actualDeliveryDate := if sb.2 then some now else sh.actualDeliveryDate,
          estimatedETA := calculateSimpleETA sh.route (some cl) sb.1 sh.estimatedETA now }

/-! ## By-id lookup semantics (src/controllers/shipmentController.js) -/

/-- `mongoose.ObjectId` validity: a 24-character hex string or a 12-character
string.  `Model.findById` throws a `CastError` on any other identifier. -/
def isValidObjectId (s : String) : Bool :=
  (s.length = 24 && s.toList.all fun c =>
      c.isDigit || ('a' ≤ c && c ≤ 'f') || ('A' ≤ c && c ≤ 'F'))
    || s.length = 12

/-- `Shipment.findById(id)`: a `CastError` for a syntactically invalid
ObjectId, otherwise the first document whose `_id` matches. -/
def findById (db : List Shipment) (id : String) : Except Err (Option Shipment) :=
  if isValidObjectId id then .ok (db.find? fun s => s.objId == id)
  else .error .CastError

/-- `Shipment.findOne({ trackingId: id })`. -/
def findByTrackingId (db : List Shipment) (id : String) : Option Shipment :=
  db.find? fun s => s.trackingId == id

/-- The lookup flow of `getShipmentById` (lines 21-47): `findById`, a
`trackingId` fallback when not found, and — in the `catch` branch on a
`CastError` — a second `trackingId` attempt before giving up. -/
def getByIdLookup (db : List Shipment) (id : String) : Option Shipment :=
  match findById db id with
  | .ok (some s) => some s
  | .ok none => findByTrackingId db id
  | .error _ => findByTrackingId db id

/-- The lookup flow of `updateShipmentLocation` (lines 157-161 and the
`catch` at 205-207): `findById`, a `trackingId` fallback when not found, but
a `CastError` is answered with a plain 404 — no `trackingId` retry. -/
def updateLocationLookup (db : List Shipment) (id : String) : Option Shipment :=
  match findById db id with
  | .ok (some s) => some s
  | .ok none => findByTrackingId db id
  | .error _ => none

/-- The lookup flow of `getShipmentETA` (lines 223-227 and the `catch` at
255-257): identical to the update handler — a `CastError` is answered with a
404 and no `trackingId` retry. -/
def etaLookup (db : List Shipment) (id : String) : Option Shipment :=
  match findById db id with
  | .ok (some s) => some s
  | .ok none => findByTrackingId db id
  | .error _ => none

/-- Modelled from the spec (§6): "treat the identifier first as a primary-key
lookup; if not found, retry as a lookup by `trackingId`. An identifier that
is syntactically invalid for primary-key lookup must not raise — it must be
treated as not found by primary key and still attempted against
`trackingId`." -/
def specLookup (db : List Shipment) (id : String) : Option Shipment :=
  match (if isValidObjectId id then db.find? (fun s => s.objId == id) else none) with
  | some s => some s
  | none => findByTrackingId db id

/-- The full `updateShipmentLocation` HTTP handler over a document store:
the `!locationName` body check, the lookup, the per-document update, and the
write-back of the saved document (the store is returned unchanged on every
error path). -/
def updateLocationEndpoint (db : List Shipment) (id locationName : String)
    (latitude longitude : Option Int) (now : Nat) :
    List Shipment × Except Err Shipment :=
  if locationName = "" then (db, .error .ValidationError)
  else
    match updateLocationLookup db id with
    | none => (db, .error .NotFound)
    | some sh =>
      match updateShipmentLocation sh locationName latitude longitude now with
      | .error e => (db, .error e)
      | .ok newSh =>
        (db.map fun t => if t.objId == sh.objId then newSh else t, .ok newSh)

/-- The shipment states reachable through the public operations: a successful
`createShipment`, closed under successful `updateShipmentLocation` calls
(whose handler rejects an empty `locationName` before the document is
touched). -/
inductive Reachable : Shipment → Prop
  | created (objId tid containerId : String) (origin destination : Option RawLoc)
      (ints : List (Option RawLoc)) (st : Option Status) (now : Nat) (sh : Shipment)
      (h : createShipment objId tid containerId origin destination ints st now = .ok sh) :
      Reachable sh
  | updated (sh : Shipment) (locationName : String) (latitude longitude : Option Int)
      (now : Nat) (newSh : Shipment) (hr : Reachable sh) (hname : locationName ≠ "")
      (h : updateShipmentLocation sh locationName latitude longitude now = .ok newSh) :
      Reachable newSh

/-- Modelled from the spec (§4.3): the ordered status-transition rules for a
non-Delivered current status — destination match gives `Delivered` with
`deliveredNow`, else `Pending` becomes `InTransit`, else `Delayed`/`Cancelled`
stay, else `InTransit`. -/
def specNextStatus (cur : Status) (destName : String) (locationName : String) :
    Status × Bool :=
  if locationName = destName then (Status.Delivered, true)
  else if cur = .Pending then (Status.InTransit, false)
  else if cur = .Delayed ∨ cur = .Cancelled then (cur, false)
  else (Status.InTransit, false)

/-- Modelled from the spec (claim on the ETA estimator): remaining legs are
`len(route) - 1` when `currentLocation` is absent, `len(route) - 1 - i` when
`currentLocation.name` is found in the route at first index `i`, and
`len(route) - 1` when it is not found. -/
def claimRemainingLegs (route : List RawLoc) (cl : Option RawLoc) : Nat :=
  match cl with
  | none => route.length - 1
  | some c =>
    match route.findIdx? (fun x => x.name == c.name) with
    | some i => route.length - 1 - i
    | none => route.length - 1

/-! ## Helper lemmas about the rebuild components -/

theorem truthyName_iff (n : Option String) :
    truthyName n = true ↔ ∃ s, n = some s ∧ s ≠ "" := by
  cases n with
  | none => simp [truthyName]
  | some s => simp [truthyName, bne_iff_ne]

theorem truthyName_getD (n : Option String) (h : truthyName n = true) :
    n = some (n.getD "") := by
  cases n with
  | none => simp [truthyName] at h
  | some s => rfl

theorem truthyName_getD_ne (n : Option String) (h : truthyName n = true) :
    n.getD "" ≠ "" := by
  cases n with
  | none => simp [truthyName] at h
  | some s => simpa [truthyName, bne_iff_ne] using h

theorem keepLoc_iff (x : RawLoc) (seen : List String) :
    keepLoc x seen = true ↔ truthyName x.name = true ∧ x.name.getD "" ∉ seen := by
  simp [keepLoc, List.contains]

theorem mem_dedupAux {x : RawLoc} : ∀ (l : List RawLoc) (seen : List String),
    x ∈ dedupAux l seen →
      x ∈ l ∧ truthyName x.name = true ∧ x.name.getD "" ∉ seen
  | [], seen, h => by simp [dedupAux] at h
  | y :: rest, seen, h => by
    simp only [dedupAux] at h
    by_cases hk : keepLoc y seen = true
    · rw [if_pos hk] at h
      rcases List.mem_cons.mp h with h | h
      · subst h
        rcases (keepLoc_iff x seen).mp hk with ⟨ht, hs⟩
        exact ⟨List.mem_cons_self _ _, ht, hs⟩
      · obtain ⟨hm, ht, hs⟩ := mem_dedupAux rest _ h
        exact ⟨List.mem_cons_of_mem _ hm, ht, fun hx => hs (List.mem_cons_of_mem _ hx)⟩
    · rw [if_neg hk] at h
      obtain ⟨hm, ht, hs⟩ := mem_dedupAux rest _ h
      exact ⟨List.mem_cons_of_mem _ hm, ht, hs⟩

/-- The per-entry string key used by the dedup pass (`loc.name`, with absent
names collapsed to the empty string). -/
def nameKeys (l : List RawLoc) : List String := l.map fun x => x.name.getD ""

theorem nameKeys_nil : nameKeys [] = [] := rfl

theorem nameKeys_cons (x : RawLoc) (l : List RawLoc) :
    nameKeys (x :: l) = x.name.getD "" :: nameKeys l := rfl

theorem dedupAux_names : ∀ (l : List RawLoc) (seen : List String),
    (nameKeys (dedupAux l seen)).Nodup ∧
      ∀ t ∈ nameKeys (dedupAux l seen), t ∉ seen
  | [], seen => by simp [dedupAux, nameKeys]
  | y :: rest, seen => by
    simp only [dedupAux]
    by_cases hk : keepLoc y seen = true
    · rw [if_pos hk]
      rcases (keepLoc_iff y seen).mp hk with ⟨ht, hs⟩
      obtain ⟨ih1, ih2⟩ := dedupAux_names rest (y.name.getD "" :: seen)
      constructor
      · rw [nameKeys_cons]
        refine List.nodup_cons.mpr ⟨fun hmem => ?_, ih1⟩
        exact (ih2 _ hmem) (List.mem_cons_self _ _)
      · intro t htmem
        rw [nameKeys_cons] at htmem
        rcases List.mem_cons.mp htmem with h | h
        · subst h; exact hs
        · exact fun hx => (ih2 _ h) (List.mem_cons_of_mem _ hx)
    · rw [if_neg hk]
      exact dedupAux_names rest seen

theorem dedupAux_fixed : ∀ (l : List RawLoc) (seen : List String),
    (∀ x ∈ l, truthyName x.name = true) → (nameKeys l).Nodup →
    (∀ t ∈ nameKeys l, t ∉ seen) → dedupAux l seen = l
  | [], seen, _, _, _ => rfl
  | y :: rest, seen, ht, hn, hs => by
    have hty : truthyName y.name = true := ht y (List.mem_cons_self _ _)
    have hky : y.name.getD "" ∉ seen :=
      hs _ (by rw [nameKeys_cons]; exact List.mem_cons_self _ _)
    have hk : keepLoc y seen = true := (keepLoc_iff y seen).mpr ⟨hty, hky⟩
    rw [nameKeys_cons] at hn hs
    simp only [dedupAux, if_pos hk]
    congr 1
    refine dedupAux_fixed rest _ (fun x hx => ht x (List.mem_cons_of_mem _ hx))
      (List.nodup_cons.mp hn).2 ?_
    intro t htm
    rcases List.nodup_cons.mp hn with ⟨hnotin, _⟩
    intro hcon
    rcases List.mem_cons.mp hcon with h | h
    · exact hnotin (h ▸ htm)
    · exact hs t (List.mem_cons_of_mem _ htm) h

theorem dedupAux_append (l₁ l₂ : List RawLoc) : ∀ (seen : List String),
    dedupAux (l₁ ++ l₂) seen = dedupAux l₁ seen ++ dedupAux l₂ (seenAfter l₁ seen) := by
  induction l₁ with
  | nil => intro seen; simp [dedupAux, seenAfter]
  | cons y rest ih =>
    intro seen
    by_cases hk : keepLoc y seen = true <;>
      simp [dedupAux, seenAfter, hk, ih]

theorem dedupAux_single (x : RawLoc) (seen : List String) :
    dedupAux [x] seen = if keepLoc x seen then [x] else [] := by
  simp [dedupAux]

theorem mem_seenAfter_of_mem {t : String} : ∀ (l : List RawLoc) (seen : List String),
    t ∈ seen → t ∈ seenAfter l seen
  | [], seen, h => h
  | y :: rest, seen, h => by
    simp only [seenAfter]
    by_cases hk : keepLoc y seen = true
    · rw [if_pos hk]
      exact mem_seenAfter_of_mem rest _ (List.mem_cons_of_mem _ h)
    · rw [if_neg hk]
      exact mem_seenAfter_of_mem rest seen h

theorem mem_seenAfter {t : String} : ∀ (l : List RawLoc) (seen : List String),
    t ∈ seenAfter l seen →
      t ∈ seen ∨ ∃ x ∈ l, truthyName x.name = true ∧ x.name.getD "" = t
  | [], seen, h => Or.inl h
  | y :: rest, seen, h => by
    simp only [seenAfter] at h
    by_cases hk : keepLoc y seen = true
    · rw [if_pos hk] at h
      rcases mem_seenAfter rest _ h with h | ⟨x, hx, hxt, hxk⟩
      · rcases List.mem_cons.mp h with h | h
        · subst h
          exact Or.inr ⟨y, List.mem_cons_self _ _, ((keepLoc_iff y seen).mp hk).1, rfl⟩
        · exact Or.inl h
      · exact Or.inr ⟨x, List.mem_cons_of_mem _ hx, hxt, hxk⟩
    · rw [if_neg hk] at h
      rcases mem_seenAfter rest seen h with h | ⟨x, hx, hxt, hxk⟩
      · exact Or.inl h
      · exact Or.inr ⟨x, List.mem_cons_of_mem _ hx, hxt, hxk⟩

theorem mem_of_getLast?' {l : List RawLoc} {a : RawLoc} (h : l.getLast? = some a) :
    a ∈ l := by
  rw [List.getLast?_eq_head?_reverse] at h
  exact List.mem_reverse.mp (List.mem_of_mem_head? h)

theorem appendDest_push (db : RawLoc) (l : List RawLoc)
    (h : ∀ lp, l.getLast? = some lp → (lp.name == db.name) = false) :
    appendDest (some db) l = l ++ [db] := by
  cases hl : l.getLast? with
  | none => simp [appendDest, hl]
  | some lp => simp [appendDest, hl, h lp hl]

theorem appendDest_merge (db : RawLoc) (l : List RawLoc) (lp : RawLoc)
    (hl : l.getLast? = some lp) (h : (lp.name == db.name) = true) :
    appendDest (some db) l = l := by
  simp [appendDest, hl, h]

theorem toPlain_map_some : ∀ l : List RawLoc, toPlain (l.map some) = .ok l
  | [] => rfl
  | x :: rest => by
    simp only [List.map_cons, toPlain, toPlain_map_some rest, Except.map]

theorem toPlain_ok_eq : ∀ (ints : List (Option RawLoc)) (ps : List RawLoc),
    toPlain ints = .ok ps → ints = ps.map some
  | [], ps, h => by
    simp only [toPlain] at h
    cases h; rfl
  | none :: rest, ps, h => by simp [toPlain] at h
  | some x :: rest, ps, h => by
    simp only [toPlain] at h
    cases hr : toPlain rest with
    | error e => rw [hr] at h; simp [Except.map] at h
    | ok qs =>
      rw [hr] at h
      simp only [Except.map] at h
      cases h
      simp [toPlain_ok_eq rest qs hr]

theorem rebuildRoute_ok {o d : Option RawLoc} {ints : List (Option RawLoc)}
    {r : List RawLoc} (h : rebuildRoute o d ints = .ok r) :
    ∃ ps, toPlain ints = .ok ps ∧
      r = dedupAux (preDedup o d (ps.filter (interFilter o d))) [] := by
  unfold rebuildRoute at h
  cases htp : toPlain ints with
  | error e => rw [htp] at h; simp [Except.map] at h
  | ok ps =>
    rw [htp] at h
    simp only [Except.map, Except.ok.injEq] at h
    exact ⟨ps, rfl, h.symm⟩

theorem nameKeys_map_name (l : List RawLoc)
    (h : ∀ x ∈ l, truthyName x.name = true) :
    l.map RawLoc.name = (nameKeys l).map some := by
  induction l with
  | nil => rfl
  | cons y rest ih =>
    have hy := h y (List.mem_cons_self _ _)
    simp only [List.map_cons, nameKeys_cons]
    rw [ih fun x hx => h x (List.mem_cons_of_mem _ hx)]
    rw [← truthyName_getD _ hy]

/-! ## Concrete fixtures used by witnesses and counterexamples -/

def locA : RawLoc := { name := some "A" }
def locB : RawLoc := { name := some "B" }
def locC : RawLoc := { name := some "C" }
def locNoName : RawLoc := { name := none }
def locEmptyName : RawLoc := { name := some "" }

/-- A stored shipment whose `trackingId` has the shape the model generates
(`CARGO` + 6 digits — an 11-character string, never a valid ObjectId). -/
def shTrack : Shipment where
  objId := "aaaaaaaaaaaaaaaaaaaaaaaa"
  trackingId := "CARGO123456"
  containerId := "CONT1"
  origin := some locA
  destination := some locB
  route := [locA, locB]
  currentLocation := some locA
  estimatedETA := none
  status := Status.InTransit
  actualDeliveryDate := none

def shDelivered : Shipment := { shTrack with status := Status.Delivered }

/-! ## C1 — the reconciled route has no duplicate names -/

/-- C1: for every origin, destination and intermediate input, a successful
pre-save route rebuild produces a route in which no two entries carry the
same `name`. -/
theorem rebuild_no_dup_names (o d : Option RawLoc) (ints : List (Option RawLoc))
    (r : List RawLoc) (h : rebuildRoute o d ints = .ok r) :
    (r.map RawLoc.name).Nodup := by
  obtain ⟨ps, hps, hr⟩ := rebuildRoute_ok h
  subst hr
  have htruthy : ∀ x ∈ dedupAux (preDedup o d (ps.filter (interFilter o d))) [],
      truthyName x.name = true := fun x hx => (mem_dedupAux _ _ hx).2.1
  rw [nameKeys_map_name _ htruthy]
  exact ((dedupAux_names _ _).1).map (Option.some_injective _)

/-- Witness for C1 at a concrete input with duplicate candidates. -/
theorem rebuild_no_dup_names_witness :
    rebuildRoute (some locA) (some locC) [some locB, some locB, some locA] =
      .ok [locA, locB, locC] ∧
    (([locA, locB, locC].map RawLoc.name)).Nodup :=
  ⟨rfl, rebuild_no_dup_names (some locA) (some locC)
    [some locB, some locB, some locA] [locA, locB, locC] rfl⟩

/-! ## C5 — status transition agrees with the spec's ordered rules -/

/-- C5: for every non-Delivered current status, the status/deliveredNow pair
computed by `updateShipmentLocation` equals the spec's ordered transition
rules (destination match forces `Delivered` even from `Delayed`/`Cancelled`;
otherwise `Pending` starts transit, `Delayed`/`Cancelled` are sticky, and
anything else is `In Transit`). -/
theorem statusUpdate_matches_spec (cur : Status) (destName locationName : String)
    (h : cur ≠ Status.Delivered) :
    statusAfterUpdate cur (some destName) locationName =
      specNextStatus cur destName locationName := by
  by_cases hd : destName = locationName
  · subst hd
    cases cur <;> simp [statusAfterUpdate, specNextStatus]
  · have hb : (some destName == some locationName) = false :=
      beq_eq_false_iff_ne.mpr fun hcon => hd (Option.some.inj hcon)
    have hs : ¬ locationName = destName := fun hcon => hd hcon.symm
    cases cur <;>
      first
      | exact absurd rfl h
      | simp [statusAfterUpdate, specNextStatus, hb, hs]

/-- Witness for C5: a destination ping on a `Delayed` shipment delivers. -/
theorem statusUpdate_matches_spec_witness :
    statusAfterUpdate Status.Delayed (some "B") "B" =
      specNextStatus Status.Delayed "B" "B" :=
  statusUpdate_matches_spec Status.Delayed "B" "B" (by decide)

/-! ## C7 — Delivered locks the ETA; short routes keep the stored ETA -/

/-- C7: the ETA calculation returns `none` whenever the status is
`Delivered`, regardless of route, current location and time; for a
non-Delivered status and a route with fewer than 2 points it returns the
previously stored ETA unchanged. -/
theorem eta_delivered_or_short (route : List RawLoc) (cl : Option RawLoc)
    (st : Status) (storedETA : Option Nat) (now : Nat) :
    (st = Status.Delivered →
      calculateSimpleETA route cl st storedETA now = none) ∧
    (st ≠ Status.Delivered → route.length < 2 →
      calculateSimpleETA route cl st storedETA now = storedETA) := by
  constructor
  · intro h
    simp [calculateSimpleETA, h]
  · intro h hl
    simp [calculateSimpleETA, h, hl]

/-- Witness for C7 at concrete inputs. -/
theorem eta_delivered_or_short_witness :
    calculateSimpleETA [locA, locB] (some locA) Status.Delivered (some 7) 3 = none ∧
    calculateSimpleETA [locA] (some locA) Status.Pending (some 7) 3 = some 7 :=
  ⟨(eta_delivered_or_short [locA, locB] (some locA) Status.Delivered (some 7) 3).1 rfl,
   (eta_delivered_or_short [locA] (some locA) Status.Pending (some 7) 3).2
     (by decide) (by decide)⟩

/-! ## C8 — a Delivered shipment rejects location updates unchanged -/

/-- C8: when the update-location handler finds a shipment whose status is
`Delivered` (and the request carries a location name, which the handler
checks first), the request fails with the invalid-state error and the
document store is returned exactly unchanged. -/
theorem delivered_rejects_update (db : List Shipment) (id locationName : String)
    (lat lon : Option Int) (now : Nat) (sh : Shipment)
    (hname : locationName ≠ "")
    (hfind : updateLocationLookup db id = some sh)
    (hst : sh.status = Status.Delivered) :
    updateLocationEndpoint db id locationName lat lon now =
      (db, .error .InvalidState) := by
  simp [updateLocationEndpoint, hname, hfind, updateShipmentLocation, hst]

/-- Witness for C8 on a one-document store holding a Delivered shipment. -/
theorem delivered_rejects_update_witness :
    updateLocationEndpoint [shDelivered] "aaaaaaaaaaaaaaaaaaaaaaaa" "B" none none 5 =
      ([shDelivered], .error .InvalidState) :=
  delivered_rejects_update [shDelivered] "aaaaaaaaaaaaaaaaaaaaaaaa" "B" none none 5
    shDelivered (by decide) rfl rfl

/-! ## C4 — by-id lookup semantics: CastError handling diverges per handler -/

/-- C4 (code bug evidence): for an identifier that is a real trackingId (11
characters, syntactically invalid as an ObjectId), the spec's lookup and the
`getShipmentById` handler find the shipment, but the `updateShipmentLocation`
and `getShipmentETA` handlers answer the thrown `CastError` with a plain
not-found — the `trackingId` retry required by the spec never happens there. -/
theorem lookup_castError_divergence :
    specLookup [shTrack] "CARGO123456" = some shTrack ∧
    getByIdLookup [shTrack] "CARGO123456" = some shTrack ∧
    updateLocationLookup [shTrack] "CARGO123456" = none ∧
    etaLookup [shTrack] "CARGO123456" = none :=
  ⟨rfl, rfl, rfl, rfl⟩

/-! ## C10 — malformed intermediate entries in the rebuild -/

/-- C10 (code bug evidence): an intermediate entry without a name is silently
dropped by the rebuild, but a `null` intermediate entry makes the rebuild
throw in the plain-object conversion step — before the null-tolerant
`loc && loc.name` filter and the dedup pass's skip-and-warn branch can drop
it. -/
theorem rebuild_null_throws :
    rebuildRoute (some locA) (some locC) [some locNoName] = .ok [locA, locC] ∧
    rebuildRoute (some locA) (some locC) [none] =
      .error "TypeError: cannot read properties of null" :=
  ⟨rfl, rfl⟩

/-! ## C3 — the Delivered invariant over reachable states -/

theorem calculateSimpleETA_delivered (route : List RawLoc) (cl : Option RawLoc)
    (storedETA : Option Nat) (now : Nat) :
    calculateSimpleETA route cl Status.Delivered storedETA now = none := by
  simp [calculateSimpleETA]

theorem updateShipmentLocation_ok {sh : Shipment} {locationName : String}
    {lat lon : Option Int} {now : Nat} {sh' : Shipment}
    (h : updateShipmentLocation sh locationName lat lon now = .ok sh') :
    sh.status ≠ Status.Delivered ∧
    sh' = { sh with
      currentLocation := some (mkCurrentLoc locationName lat lon now),
      status := (statusAfterUpdate sh.status (sh.destination.bind RawLoc.name) locationName).1,
      actualDeliveryDate :=
        if (statusAfterUpdate sh.status (sh.destination.bind RawLoc.name) locationName).2
        then some now else sh.actualDeliveryDate,
      estimatedETA := calculateSimpleETA sh.route
        (some (mkCurrentLoc locationName lat lon now))
        (statusAfterUpdate sh.status (sh.destination.bind RawLoc.name) locationName).1
        sh.estimatedETA now } := by
  by_cases hD : sh.status = Status.Delivered
  · simp [updateShipmentLocation, hD] at h
  · refine ⟨hD, ?_⟩
    simp only [updateShipmentLocation, if_neg hD, Except.ok.injEq] at h
    exact h.symm

theorem statusAfterUpdate_delivered (cur : Status) (dn : Option String) (ln : String)
    (hc : cur ≠ Status.Delivered)
    (h1 : (statusAfterUpdate cur dn ln).1 = Status.Delivered) :
    statusAfterUpdate cur dn ln = (Status.Delivered, true) := by
  by_cases hb : (dn == some ln) = true
  · simp [statusAfterUpdate, hb]
  · exfalso
    cases cur <;> simp_all [statusAfterUpdate]

theorem createShipment_ok_eta {objId tid cid : String}
    {origin destination : Option RawLoc} {ints : List (Option RawLoc)}
    {st : Option Status} {now : Nat} {sh : Shipment}
    (h : createShipment objId tid cid origin destination ints st now = .ok sh) :
    sh.estimatedETA =
      calculateSimpleETA sh.route sh.currentLocation sh.status none now := by
  unfold createShipment at h
  split at h
  · exact absurd h (by simp)
  · split at h
    · split at h
      · exact absurd h (by simp)
      · simp only [Except.ok.injEq] at h
        subst h
        rfl
    · exact absurd h (by simp)

/-- C3 (amended): in every state reachable through `createShipment` and
`updateShipmentLocation`, a `Delivered` status implies an absent
`estimatedETA`; and whenever the `Delivered` status is the result of a
location update, `actualDeliveryDate` is also set (to the update time).
The original claim's `actualDeliveryDate` half fails for shipments created
directly with a caller-supplied `Delivered` status. -/
theorem delivered_state_invariant :
    (∀ sh, Reachable sh → sh.status = Status.Delivered → sh.estimatedETA = none) ∧
    (∀ (sh : Shipment) (locationName : String) (lat lon : Option Int)
      (now : Nat) (sh' : Shipment),
      updateShipmentLocation sh locationName lat lon now = .ok sh' →
      sh'.status = Status.Delivered →
      sh'.actualDeliveryDate = some now ∧ sh'.estimatedETA = none) := by
  have hupd : ∀ (sh : Shipment) (locationName : String) (lat lon : Option Int)
      (now : Nat) (sh' : Shipment),
      updateShipmentLocation sh locationName lat lon now = .ok sh' →
      sh'.status = Status.Delivered →
      sh'.actualDeliveryDate = some now ∧ sh'.estimatedETA = none := by
    intro sh ln lat lon now sh' h hst
    obtain ⟨hD, hsh⟩ := updateShipmentLocation_ok h
    subst hsh
    have hdel := statusAfterUpdate_delivered sh.status
      (sh.destination.bind RawLoc.name) ln hD hst
    constructor
    · simp [hdel]
    · simp [hdel, calculateSimpleETA_delivered]
  refine ⟨?_, hupd⟩
  intro sh hreach hst
  cases hreach with
  | created objId tid cid origin destination ints st now sh h =>
    rw [createShipment_ok_eta h, hst, calculateSimpleETA_delivered]
  | updated sh0 ln lat lon now sh hr hname h =>
    exact (hupd sh0 ln lat lon now sh h hst).2

/-- The result of updating `shTrack` with its destination name at time 5. -/
def shB5 : Shipment :=
  { shTrack with
    currentLocation := some { name := some "B", timestamp := some 5 },
    status := Status.Delivered,
    actualDeliveryDate := some 5,
    estimatedETA := none }

/-- Witness for C3 (amended): delivering `shTrack` by reporting its
destination sets the delivery date and clears the ETA. -/
theorem delivered_state_invariant_witness :
    shB5.actualDeliveryDate = some 5 ∧ shB5.estimatedETA = none :=
  delivered_state_invariant.2 shTrack "B" none none 5 shB5 rfl rfl

/-- The shipment produced by `createShipment` when the caller supplies
`status = 'Delivered'` in the request body. -/
def shC3 : Shipment where
  objId := "aaaaaaaaaaaaaaaaaaaaaaaa"
  trackingId := "CARGO000001"
  containerId := "CONT1"
  origin := some locA
  destination := some locB
  route := [{ name := some "A", timestamp := some 0 }, locB]
  currentLocation := some { name := some "A", timestamp := some 0 }
  estimatedETA := none
  status := Status.Delivered
  actualDeliveryDate := none

/-- C3 counterexample: a shipment created with a caller-supplied `Delivered`
status is reachable, has status `Delivered`, but has no
`actualDeliveryDate`. -/
theorem delivered_created_without_date :
    ¬ (∀ sh, Reachable sh → sh.status = Status.Delivered →
        sh.actualDeliveryDate.isSome ∧ sh.estimatedETA = none) := by
  intro hall
  have hc : createShipment "aaaaaaaaaaaaaaaaaaaaaaaa" "CARGO000001" "CONT1"
      (some locA) (some locB) [] (some Status.Delivered) 0 = .ok shC3 := rfl
  have hr : Reachable shC3 := Reachable.created _ _ _ _ _ _ _ _ _ hc
  have hres := hall shC3 hr rfl
  simpa [shC3] using hres.1

/-! ## C6 — remaining-legs computation of the ETA estimator -/

theorem findLegIdx_not_found {s : String} : ∀ (l : List RawLoc) (k : Nat),
    (∀ x ∈ l, x.name ≠ some s) → findLegIdx l s k = none
  | [], k, _ => rfl
  | x :: rest, k, h => by
    have hx : (x.name == some s) = false :=
      beq_eq_false_iff_ne.mpr (h x (List.mem_cons_self _ _))
    simp only [findLegIdx, hx, Bool.false_eq_true, if_false]
    exact findLegIdx_not_found rest (k + 1) fun y hy => h y (List.mem_cons_of_mem _ hy)

theorem findLegIdx_found {s : String} : ∀ (l : List RawLoc) (i k : Nat),
    (l[i]?).map RawLoc.name = some (some s) →
    (∀ j, j < i → ∀ x, l[j]? = some x → x.name ≠ some s) →
    findLegIdx l s k = some (k + i)
  | [], i, k, h1, _ => by simp at h1
  | x :: rest, 0, k, h1, h2 => by
    have hx : x.name = some s := by simpa using h1
    simp [findLegIdx, hx]
  | x :: rest, i + 1, k, h1, h2 => by
    have hx : x.name ≠ some s := h2 0 (Nat.succ_pos i) x (by simp)
    have hxb : (x.name == some s) = false := beq_eq_false_iff_ne.mpr hx
    simp only [findLegIdx, hxb, Bool.false_eq_true, if_false]
    have hrec := findLegIdx_found rest i (k + 1)
      (by simpa using h1)
      (fun j hj y hy => h2 (j + 1) (Nat.succ_lt_succ hj) y (by simpa using hy))
    rw [hrec]
    congr 1
    omega

/-- C6 (amended): for a route of at least 2 points and a non-Delivered
status, the ETA is `now + remainingLegs * legMs` (or `now` when no legs
remain), where `remainingLegs` is `len - 1` when the current location is
absent, has an absent or empty name, or has a name not on the route, and
`len - 1 - i` when the current location's non-empty name first occurs at
route index `i`.  The original claim omits the truthiness guard: an
empty-string name always falls back to the full route even when the empty
string occurs as a route entry name. -/
theorem eta_remaining_legs (route : List RawLoc) (cl : Option RawLoc)
    (st : Status) (storedETA : Option Nat) (now : Nat)
    (hst : st ≠ Status.Delivered) (hlen : 2 ≤ route.length) :
    (cl.bind RawLoc.name = none →
      calculateSimpleETA route cl st storedETA now =
        some (now + (route.length - 1) * legMs)) ∧
    (∀ s, cl.bind RawLoc.name = some s → s = "" →
      calculateSimpleETA route cl st storedETA now =
        some (now + (route.length - 1) * legMs)) ∧
    (∀ s, cl.bind RawLoc.name = some s → s ≠ "" →
      (∀ x ∈ route, x.name ≠ some s) →
      calculateSimpleETA route cl st storedETA now =
        some (now + (route.length - 1) * legMs)) ∧
    (∀ s i, cl.bind RawLoc.name = some s → s ≠ "" →
      (route[i]?).map RawLoc.name = some (some s) →
      (∀ j, j < i → ∀ x, route[j]? = some x → x.name ≠ some s) →
      calculateSimpleETA route cl st storedETA now =
        (if route.length - 1 - i = 0 then some now
         else some (now + (route.length - 1 - i) * legMs))) := by
  have hcond : ¬ (st = Status.Delivered ∨ route.length < 2) := by
    push_neg
    exact ⟨hst, by omega⟩
  have hlen1 : route.length - 1 ≠ 0 := by omega
  refine ⟨?_, ?_, ?_, ?_⟩
  · intro hb
    simp [calculateSimpleETA, hcond, hb, Nat.zero_max, hlen1]
  · intro s hb hs
    subst hs
    simp [calculateSimpleETA, hcond, hb, Nat.zero_max, hlen1]
  · intro s hb hs hnf
    have hf : findLegIdx route s 0 = none := findLegIdx_not_found route 0 hnf
    simp [calculateSimpleETA, hcond, hb, hs, hf, Nat.zero_max, hlen1]
  · intro s i hb hs h1 h2
    have hf : findLegIdx route s 0 = some i := by
      simpa using findLegIdx_found route i 0 h1 h2
    simp [calculateSimpleETA, hcond, hb, hs, hf, Nat.zero_max]

/-- The route used by the C6 counterexample: an empty-string name occurs at
index 1. -/
def routeC6 : List RawLoc := [locA, locEmptyName, locC]

/-- C6 counterexample: with `currentLocation.name = ""` occurring in the
route at index 1, the claim's rules give `remainingLegs = 1`, but the code's
truthiness guard (`if (currentLocName)`) skips the search and uses the full
route, returning `now + 2 * legMs`. -/
theorem eta_empty_name_divergence :
    calculateSimpleETA routeC6 (some locEmptyName) Status.InTransit none 0 =
      some (2 * legMs) ∧
    claimRemainingLegs routeC6 (some locEmptyName) = 1 ∧
    calculateSimpleETA routeC6 (some locEmptyName) Status.InTransit none 0 ≠
      some (0 + claimRemainingLegs routeC6 (some locEmptyName) * legMs) := by
  refine ⟨rfl, rfl, ?_⟩
  decide

/-- Witness for C6 (amended) at a concrete three-point route with the
current location at index 1. -/
theorem eta_remaining_legs_witness :
    calculateSimpleETA [locA, locB, locC] (some locB) Status.InTransit none 0 =
      (if ([locA, locB, locC] : List RawLoc).length - 1 - 1 = 0 then some 0
       else some (0 + (([locA, locB, locC] : List RawLoc).length - 1 - 1) * legMs)) :=
  (eta_remaining_legs [locA, locB, locC] (some locB) Status.InTransit none 0
    (by decide) (by decide)).2.2.2 "B" 1 rfl (by decide) rfl
    (by
      intro j hj x hx
      have hj0 : j = 0 := by omega
      subst hj0
      simp only [List.getElem?_cons_zero, Option.some.injEq] at hx
      subst hx
      decide)

/-! ## C2 — anchoring of the reconciled route -/

theorem interFilter_true_of {o d : Option RawLoc} {x : RawLoc}
    (h : interFilter o d x = true) :
    truthyName x.name = true ∧ (∀ ob, o = some ob → x.name ≠ ob.name) ∧
      (∀ db, d = some db → x.name ≠ db.name) := by
  unfold interFilter at h
  simp only [Bool.and_eq_true] at h
  obtain ⟨⟨h1, h2⟩, h3⟩ := h
  refine ⟨h1, ?_, ?_⟩
  · intro ob hob
    subst hob
    simpa [bne_iff_ne] using h2
  · intro db hdb
    subst hdb
    simpa [bne_iff_ne] using h3

theorem appendDest_cons (d : Option RawLoc) (x : RawLoc) (l : List RawLoc) :
    ∃ tl, appendDest d (x :: l) = x :: tl := by
  unfold appendDest
  cases d with
  | none => exact ⟨l, rfl⟩
  | some db =>
    cases hgl : (x :: l).getLast? with
    | none => exact ⟨l ++ [db], by simp [hgl]⟩
    | some lp =>
      by_cases hb : (lp.name == db.name) = true
      · exact ⟨l, by simp [hgl, hb]⟩
      · exact ⟨l ++ [db], by simp [hgl, hb]⟩

/-- C2 (amended): a successful rebuild anchors the route as follows.  If the
origin is present (with a truthy name) the route starts with it.  If the
destination is present (with a truthy name) and the origin — when present —
carries a different name, the route ends with the destination's name; when
origin and destination share a name and there are no intermediates, the
route is the single merged origin entry (whose name equals the
destination's).  With both anchors absent the route is empty only when no
intermediate has a truthy name — named intermediates survive.  The original
claim fails both for shared origin/destination names with intermediates and
for the absent-anchors case with named intermediates. -/
theorem rebuild_anchoring (o d : Option RawLoc) (ints : List (Option RawLoc))
    (r : List RawLoc) (hr : rebuildRoute o d ints = .ok r) :
    (∀ ob, o = some ob → truthyName ob.name = true →
      r ≠ [] ∧ r.head?.map RawLoc.name = some ob.name) ∧
    (∀ db, d = some db → truthyName db.name = true →
      (∀ ob, o = some ob → ob.name ≠ db.name) →
      (r.getLast?).map RawLoc.name = some db.name) ∧
    (o = none → d = none →
      (∀ x, some x ∈ ints → truthyName x.name = false) → r = []) ∧
    (∀ ob db, o = some ob → d = some db → truthyName ob.name = true →
      ob.name = db.name → ints = [] → r = [ob]) := by
  obtain ⟨ps, hps, hrr⟩ := rebuildRoute_ok hr
  have hm : ∀ x ∈ ps.filter (interFilter o d), interFilter o d x = true :=
    fun x hx => List.of_mem_filter hx
  refine ⟨?_, ?_, ?_, ?_⟩
  · intro ob hob htr
    subst hob hrr
    obtain ⟨tl, htl⟩ := appendDest_cons d ob (ps.filter (interFilter (some ob) d))
    have hpre : preDedup (some ob) d (ps.filter (interFilter (some ob) d)) = ob :: tl := by
      unfold preDedup startRoute
      simpa using htl
    rw [hpre]
    have hk : keepLoc ob [] = true := (keepLoc_iff ob []).mpr ⟨htr, by simp⟩
    simp [dedupAux, hk]
  · intro db hdb htr honame
    subst hdb hrr
    have hall : ∀ x ∈ startRoute o ++ ps.filter (interFilter o (some db)),
        x.name ≠ db.name := by
      intro x hx
      rcases List.mem_append.mp hx with hx | hx
      · cases o with
        | none => simp [startRoute] at hx
        | some ob =>
          have : x = ob := by simpa [startRoute] using hx
          subst this
          exact honame x rfl
      · exact (interFilter_true_of (hm x hx)).2.2 db rfl
    have hpre : preDedup o (some db) (ps.filter (interFilter o (some db))) =
        (startRoute o ++ ps.filter (interFilter o (some db))) ++ [db] := by
      unfold preDedup
      exact appendDest_push db _ fun lp hlp =>
        beq_eq_false_iff_ne.mpr (hall lp (mem_of_getLast?' hlp))
    rw [hpre, dedupAux_append]
    have hkey : db.name.getD "" ∉
        seenAfter (startRoute o ++ ps.filter (interFilter o (some db))) [] := by
      intro hmem
      rcases mem_seenAfter _ _ hmem with h | ⟨x, hx, hxt, hxk⟩
      · simp at h
      · have hxeq : x.name = db.name := by
          rw [truthyName_getD _ hxt, truthyName_getD _ htr, hxk]
        exact hall x hx hxeq
    have hk : keepLoc db _ = true := (keepLoc_iff db _).mpr ⟨htr, hkey⟩
    rw [dedupAux_single, if_pos hk, List.getLast?_concat]
    simp
  · intro ho hd hints
    subst ho hd hrr
    have hnil : ps.filter (interFilter none none) = [] := by
      rw [List.filter_eq_nil_iff]
      intro x hx
      have hmem : some x ∈ ints := by
        rw [toPlain_ok_eq ints ps hps]
        exact List.mem_map_of_mem some hx
      simp [interFilter, hints x hmem]
    rw [hnil]
    rfl
  · intro ob db hob hdb htr hname hints
    subst hob hdb hints hrr
    have hps0 : ps = [] := by
      have : toPlain ([] : List (Option RawLoc)) = .ok [] := rfl
      rw [this] at hps
      exact (Except.ok.inj hps).symm
    subst hps0
    have hpre : preDedup (some ob) (some db) (List.filter (interFilter (some ob) (some db)) []) = [ob] := by
      unfold preDedup startRoute
      simp only [List.filter_nil, List.append_nil]
      exact appendDest_merge db [ob] ob rfl (beq_iff_eq.mpr hname)
    rw [hpre]
    have hk : keepLoc ob [] = true := (keepLoc_iff ob []).mpr ⟨htr, by simp⟩
    simp [dedupAux, hk]

/-- C2 counterexample: with both anchors absent a named intermediate
survives (the route is not empty), and when origin and destination share the
name `A` with an intermediate `B`, the rebuilt route is `[A, B]` — its last
entry is not named after the destination. -/
theorem rebuild_anchoring_counterexample :
    rebuildRoute none none [some locB] = .ok [locB] ∧
    ([locB] : List RawLoc) ≠ [] ∧
    rebuildRoute (some locA) (some locA) [some locB] = .ok [locA, locB] ∧
    (([locA, locB] : List RawLoc).getLast?).map RawLoc.name ≠ some locA.name := by
  refine ⟨rfl, by decide, rfl, by decide⟩

/-- Witness for C2 (amended) on the route `[A, B, C]` built from origin `A`,
destination `C` and intermediate `B`. -/
theorem rebuild_anchoring_witness :
    ([locA, locB, locC] : List RawLoc).head?.map RawLoc.name = some locA.name ∧
    (([locA, locB, locC] : List RawLoc).getLast?).map RawLoc.name = some locC.name := by
  have h := rebuild_anchoring (some locA) (some locC) [some locB]
    [locA, locB, locC] rfl
  refine ⟨(h.1 locA rfl (by decide)).2, h.2.1 locC rfl (by decide) ?_⟩
  intro ob hob
  have heq : ob = locA := (Option.some.inj hob).symm
  subst heq
  decide

/-! ## C9 — idempotence of the route rebuild -/

theorem bool_eq_false {b : Bool} (h : ¬ b = true) : b = false := by
  rcases Bool.eq_false_or_eq_true b with h2 | h2
  · exact absurd h2 h
  · exact h2

theorem name_eq_of_key_eq {a b : Option String} (ha : truthyName a = true)
    (hb : truthyName b = true) (h : a.getD "" = b.getD "") : a = b := by
  rw [truthyName_getD _ ha, truthyName_getD _ hb, h]

theorem key_not_in_seenAfter {db : RawLoc} (htr : truthyName db.name = true)
    (l : List RawLoc) (seen : List String) (hs : db.name.getD "" ∉ seen)
    (hl : ∀ x ∈ l, truthyName x.name = true → x.name ≠ db.name) :
    db.name.getD "" ∉ seenAfter l seen := by
  intro hmem
  rcases mem_seenAfter _ _ hmem with h | ⟨x, hx, hxt, hxk⟩
  · exact hs h
  · exact hl x hx hxt (name_eq_of_key_eq hxt htr hxk)

theorem dedupAux_fixed_of_dedup (l : List RawLoc) (seen seen' : List String)
    (h : ∀ t ∈ nameKeys (dedupAux l seen), t ∉ seen') :
    dedupAux (dedupAux l seen) seen' = dedupAux l seen :=
  dedupAux_fixed (dedupAux l seen) seen'
    (fun x hx => (mem_dedupAux _ _ hx).2.1) (dedupAux_names l seen).1 h

theorem interFilter_o_self (ob : RawLoc) (d : Option RawLoc) :
    interFilter (some ob) d ob = false := by
  simp [interFilter, bne_self_eq_false]

theorem interFilter_d_self (db : RawLoc) (o : Option RawLoc) :
    interFilter o (some db) db = false := by
  simp [interFilter, bne_self_eq_false]

theorem filter_cons_false {p : RawLoc → Bool} {a : RawLoc} (l : List RawLoc)
    (h : p a = false) : (a :: l).filter p = l.filter p := by
  rw [List.filter_cons, h]
  simp

theorem getLast?_cons_cases {x lp : RawLoc} {l : List RawLoc}
    (h : (x :: l).getLast? = some lp) : (l = [] ∧ lp = x) ∨ lp ∈ l := by
  cases l with
  | nil =>
    left
    refine ⟨rfl, ?_⟩
    have h2 : x = lp := by simpa using h
    exact h2.symm
  | cons y t =>
    right
    rw [List.getLast?_cons_cons] at h
    exact mem_of_getLast?' h

theorem rebuild_core_idem (o d : Option RawLoc) (m : List RawLoc)
    (hm : ∀ x ∈ m, interFilter o d x = true) :
    dedupAux (preDedup o d
      ((dedupAux (preDedup o d m) []).filter (interFilter o d))) [] =
      dedupAux (preDedup o d m) [] := by
  cases o with
  | none =>
    cases d with
    | none =>
      have hpre : ∀ (l : List RawLoc), preDedup none none l = l := fun l => rfl
      rw [hpre m]
      have hfix : (dedupAux m []).filter (interFilter none none) = dedupAux m [] :=
        List.filter_eq_self.mpr fun x hx => hm x (mem_dedupAux _ _ hx).1
      rw [hfix, hpre (dedupAux m [])]
      exact dedupAux_fixed_of_dedup m [] [] (by simp)
    | some db =>
      have hall : ∀ x ∈ m, x.name ≠ db.name :=
        fun x hx => (interFilter_true_of (hm x hx)).2.2 db rfl
      have hpre : preDedup none (some db) m = m ++ [db] := by
        have h0 : preDedup none (some db) m = appendDest (some db) m := rfl
        rw [h0]
        exact appendDest_push db m fun lp hlp =>
          beq_eq_false_iff_ne.mpr (hall lp (mem_of_getLast?' hlp))
      have hallt : ∀ x ∈ dedupAux m [], x.name ≠ db.name :=
        fun x hx => hall x (mem_dedupAux _ _ hx).1
      have hpre2 : preDedup none (some db) (dedupAux m []) = dedupAux m [] ++ [db] := by
        have h0 : preDedup none (some db) (dedupAux m []) =
            appendDest (some db) (dedupAux m []) := rfl
        rw [h0]
        exact appendDest_push db _ fun lp hlp =>
          beq_eq_false_iff_ne.mpr (hallt lp (mem_of_getLast?' hlp))
      have hXel : ∀ (σ : List String) (x : RawLoc), x ∈ dedupAux [db] σ → x = db := by
        intro σ x hx
        have hx2 := (mem_dedupAux _ _ hx).1
        simpa using hx2
      have hfF : (dedupAux m [] ++ dedupAux [db] (seenAfter m [])).filter
          (interFilter none (some db)) = dedupAux m [] := by
        rw [List.filter_append, List.filter_eq_self.mpr
          (fun x hx => hm x (mem_dedupAux _ _ hx).1)]
        have h2 : (dedupAux [db] (seenAfter m [])).filter (interFilter none (some db)) = [] := by
          rw [List.filter_eq_nil_iff]
          intro x hx
          rw [hXel _ x hx]
          simp [interFilter_d_self]
        rw [h2, List.append_nil]
      rw [hpre, dedupAux_append m [db] [], hfF, hpre2, dedupAux_append,
        dedupAux_fixed_of_dedup m [] [] (by simp)]
      by_cases htr : truthyName db.name = true
      · have hk1 : keepLoc db (seenAfter m []) = true :=
          (keepLoc_iff _ _).mpr ⟨htr,
            key_not_in_seenAfter htr m [] (by simp) fun x hx _ => hall x hx⟩
        have hk2 : keepLoc db (seenAfter (dedupAux m []) []) = true :=
          (keepLoc_iff _ _).mpr ⟨htr,
            key_not_in_seenAfter htr _ [] (by simp) fun x hx _ => hallt x hx⟩
        rw [dedupAux_single, dedupAux_single, if_pos hk1, if_pos hk2]
      · have hdf : truthyName db.name = false := bool_eq_false htr
        have hk1 : keepLoc db (seenAfter m []) = false := by
          simp [keepLoc, hdf]
        have hk2 : keepLoc db (seenAfter (dedupAux m []) []) = false := by
          simp [keepLoc, hdf]
        rw [dedupAux_single, dedupAux_single, hk1, hk2]
  | some ob =>
    cases d with
    | none =>
      have hpre : ∀ (l : List RawLoc), preDedup (some ob) none l = ob :: l :=
        fun l => rfl
      rw [hpre m]
      by_cases hk : keepLoc ob [] = true
      · have hd1 : dedupAux (ob :: m) [] = ob :: dedupAux m [ob.name.getD ""] := by
          simp [dedupAux, hk]
        rw [hd1]
        have hfF : (ob :: dedupAux m [ob.name.getD ""]).filter
            (interFilter (some ob) none) = dedupAux m [ob.name.getD ""] := by
          rw [filter_cons_false _ (interFilter_o_self ob none)]
          exact List.filter_eq_self.mpr fun x hx => hm x (mem_dedupAux _ _ hx).1
        rw [hfF, hpre (dedupAux m [ob.name.getD ""])]
        have hd2 : dedupAux (ob :: dedupAux m [ob.name.getD ""]) [] =
            ob :: dedupAux (dedupAux m [ob.name.getD ""]) [ob.name.getD ""] := by
          simp [dedupAux, hk]
        rw [hd2, dedupAux_fixed_of_dedup m [ob.name.getD ""] [ob.name.getD ""]
          (dedupAux_names m [ob.name.getD ""]).2]
      · have hd1 : dedupAux (ob :: m) [] = dedupAux m [] := by
          simp [dedupAux, hk]
        rw [hd1]
        have hfF : (dedupAux m []).filter (interFilter (some ob) none) = dedupAux m [] :=
          List.filter_eq_self.mpr fun x hx => hm x (mem_dedupAux _ _ hx).1
        rw [hfF, hpre (dedupAux m [])]
        have hd2 : dedupAux (ob :: dedupAux m []) [] = dedupAux (dedupAux m []) [] := by
          simp [dedupAux, hk]
        rw [hd2]
        exact dedupAux_fixed_of_dedup m [] [] (by simp)
    | some db =>
      have hallm : ∀ x ∈ m, x.name ≠ db.name :=
        fun x hx => (interFilter_true_of (hm x hx)).2.2 db rfl
      have hallmo : ∀ x ∈ m, x.name ≠ ob.name :=
        fun x hx => (interFilter_true_of (hm x hx)).2.1 ob rfl
      have hpre0 : ∀ (l : List RawLoc),
          preDedup (some ob) (some db) l = appendDest (some db) (ob :: l) :=
        fun l => rfl
      have hXel : ∀ (σ : List String) (x : RawLoc), x ∈ dedupAux [db] σ → x = db := by
        intro σ x hx
        have hx2 := (mem_dedupAux _ _ hx).1
        simpa using hx2
      have hfsplit : ∀ (l1 X : List RawLoc),
          (∀ x ∈ l1, interFilter (some ob) (some db) x = true) →
          (∀ x ∈ X, x = db) →
          (l1 ++ X).filter (interFilter (some ob) (some db)) = l1 := by
        intro l1 X h1 h2
        rw [List.filter_append, List.filter_eq_self.mpr h1]
        have h3 : X.filter (interFilter (some ob) (some db)) = [] := by
          rw [List.filter_eq_nil_iff]
          intro x hx
          rw [h2 x hx]
          simp [interFilter_d_self]
        rw [h3, List.append_nil]
      have hpush2 : ∀ (t : List RawLoc), (∀ x ∈ t, x.name ≠ db.name) →
          (ob.name == db.name) = false →
          appendDest (some db) (ob :: t) = ob :: (t ++ [db]) := by
        intro t htall hbe
        have hp : ∀ lp, (ob :: t).getLast? = some lp → (lp.name == db.name) = false := by
          intro lp hlp
          rcases getLast?_cons_cases hlp with ⟨hm0, hlpx⟩ | hlp2
          · subst hlpx
            exact hbe
          · exact beq_eq_false_iff_ne.mpr (htall lp hlp2)
        rw [appendDest_push db (ob :: t) hp, List.cons_append]
      by_cases hA : m = [] ∧ (ob.name == db.name) = true
      · obtain ⟨hm0, hbe⟩ := hA
        subst hm0
        have hpre : preDedup (some ob) (some db) [] = [ob] := by
          rw [hpre0]
          exact appendDest_merge db [ob] ob rfl hbe
        rw [hpre]
        have hfF : (dedupAux [ob] []).filter (interFilter (some ob) (some db)) = [] := by
          rw [List.filter_eq_nil_iff]
          intro x hx
          have hx2 : x = ob := by
            have := (mem_dedupAux _ _ hx).1
            simpa using this
          rw [hx2]
          simp [interFilter_o_self]
        rw [hfF, hpre]
      · have hbe_or : m ≠ [] ∨ (ob.name == db.name) = false := by
          by_cases h1 : m = []
          · right
            cases h2 : (ob.name == db.name)
            · rfl
            · exact absurd ⟨h1, h2⟩ hA
          · exact Or.inl h1
        have hpush1 : preDedup (some ob) (some db) m = ob :: (m ++ [db]) := by
          rw [hpre0]
          have hp : ∀ lp, (ob :: m).getLast? = some lp → (lp.name == db.name) = false := by
            intro lp hlp
            rcases getLast?_cons_cases hlp with ⟨hm0, hlpx⟩ | hlp2
            · subst hlpx
              rcases hbe_or with h | h
              · exact absurd hm0 h
              · exact h
            · exact beq_eq_false_iff_ne.mpr (hallm lp hlp2)
          rw [appendDest_push db (ob :: m) hp, List.cons_append]
        rw [hpush1]
        by_cases hk : keepLoc ob [] = true
        · have hko : truthyName ob.name = true := ((keepLoc_iff _ _).mp hk).1
          have hd1 : dedupAux (ob :: (m ++ [db])) [] =
              ob :: dedupAux (m ++ [db]) [ob.name.getD ""] := by
            simp [dedupAux, hk]
          rw [hd1, dedupAux_append m [db] [ob.name.getD ""]]
          have hmF : ∀ x ∈ dedupAux m [ob.name.getD ""],
              interFilter (some ob) (some db) x = true :=
            fun x hx => hm x (mem_dedupAux _ _ hx).1
          have htall : ∀ x ∈ dedupAux m [ob.name.getD ""], x.name ≠ db.name :=
            fun x hx => hallm x (mem_dedupAux _ _ hx).1
          have hfix := dedupAux_fixed_of_dedup m [ob.name.getD ""] [ob.name.getD ""]
            (dedupAux_names m [ob.name.getD ""]).2
          have hfF : (ob :: (dedupAux m [ob.name.getD ""] ++
              dedupAux [db] (seenAfter m [ob.name.getD ""]))).filter
              (interFilter (some ob) (some db)) = dedupAux m [ob.name.getD ""] := by
            rw [filter_cons_false _ (interFilter_o_self ob (some db))]
            exact hfsplit _ _ hmF (hXel _)
          rw [hfF, hpre0]
          by_cases htr : truthyName db.name = true
          · by_cases hbe : (ob.name == db.name) = true
            · have hkeq : db.name.getD "" = ob.name.getD "" := by
                rw [beq_iff_eq.mp hbe]
              have hX1 : dedupAux [db] (seenAfter m [ob.name.getD ""]) = [] := by
                have hkf : ¬ keepLoc db (seenAfter m [ob.name.getD ""]) = true := by
                  intro hc
                  exact ((keepLoc_iff _ _).mp hc).2
                    (by
                      rw [hkeq]
                      exact mem_seenAfter_of_mem _ _ (List.mem_singleton.mpr rfl))
                rw [dedupAux_single, if_neg hkf]
              rw [hX1, List.append_nil]
              cases ht : dedupAux m [ob.name.getD ""] with
              | nil =>
                have hpre2 : appendDest (some db) (ob :: ([] : List RawLoc)) = [ob] :=
                  appendDest_merge db [ob] ob rfl hbe
                rw [hpre2]
                simp [dedupAux, hk]
              | cons y t' =>
                have htall2 : ∀ x ∈ y :: t', x.name ≠ db.name := by
                  rw [ht] at htall
                  exact htall
                have hpre2 : appendDest (some db) (ob :: (y :: t')) =
                    ob :: ((y :: t') ++ [db]) := by
                  have hp : ∀ lp, (ob :: (y :: t')).getLast? = some lp →
                      (lp.name == db.name) = false := by
                    intro lp hlp
                    rcases getLast?_cons_cases hlp with ⟨hm0, hlpx⟩ | hlp2
                    · exact absurd hm0 (by simp)
                    · exact beq_eq_false_iff_ne.mpr (htall2 lp hlp2)
                  rw [appendDest_push db _ hp, List.cons_append]
                rw [hpre2]
                have hd2 : dedupAux (ob :: ((y :: t') ++ [db])) [] =
                    ob :: dedupAux ((y :: t') ++ [db]) [ob.name.getD ""] := by
                  simp [dedupAux, hk]
                rw [hd2, dedupAux_append]
                have hfix2 := hfix
                rw [ht] at hfix2
                rw [hfix2]
                have hX2 : dedupAux [db] (seenAfter (y :: t') [ob.name.getD ""]) = [] := by
                  have hkf : ¬ keepLoc db (seenAfter (y :: t') [ob.name.getD ""]) = true := by
                    intro hc
                    exact ((keepLoc_iff _ _).mp hc).2
                      (by
                        rw [hkeq]
                        exact mem_seenAfter_of_mem _ _ (List.mem_singleton.mpr rfl))
                  rw [dedupAux_single, if_neg hkf]
                rw [hX2, List.append_nil]
            · have hbf : (ob.name == db.name) = false := bool_eq_false hbe
              have hkne : db.name.getD "" ≠ ob.name.getD "" := by
                intro hcon
                have hnm : db.name = ob.name := name_eq_of_key_eq htr hko hcon
                have htrue : (ob.name == db.name) = true := beq_iff_eq.mpr hnm.symm
                rw [hbf] at htrue
                exact Bool.noConfusion htrue
              have hX1 : dedupAux [db] (seenAfter m [ob.name.getD ""]) = [db] := by
                have hknotin : db.name.getD "" ∉ seenAfter m [ob.name.getD ""] :=
                  key_not_in_seenAfter htr m [ob.name.getD ""]
                    (by simpa using hkne) (fun x hx _ => hallm x hx)
                rw [dedupAux_single, if_pos ((keepLoc_iff _ _).mpr ⟨htr, hknotin⟩)]
              rw [hX1]
              have hpre2 : appendDest (some db) (ob :: dedupAux m [ob.name.getD ""]) =
                  ob :: (dedupAux m [ob.name.getD ""] ++ [db]) :=
                hpush2 _ htall hbf
              rw [hpre2]
              have hd2 : dedupAux (ob :: (dedupAux m [ob.name.getD ""] ++ [db])) [] =
                  ob :: dedupAux (dedupAux m [ob.name.getD ""] ++ [db])
                    [ob.name.getD ""] := by
                simp [dedupAux, hk]
              rw [hd2, dedupAux_append, hfix]
              have hX2 : dedupAux [db]
                  (seenAfter (dedupAux m [ob.name.getD ""]) [ob.name.getD ""]) = [db] := by
                have hknotin : db.name.getD "" ∉
                    seenAfter (dedupAux m [ob.name.getD ""]) [ob.name.getD ""] :=
                  key_not_in_seenAfter htr _ _ (by simpa using hkne)
                    (fun x hx _ => htall x hx)
                rw [dedupAux_single, if_pos ((keepLoc_iff _ _).mpr ⟨htr, hknotin⟩)]
              rw [hX2]
          · have hdf : truthyName db.name = false := bool_eq_false htr
            have hX1 : dedupAux [db] (seenAfter m [ob.name.getD ""]) = [] := by
              rw [dedupAux_single]
              simp [keepLoc, hdf]
            rw [hX1, List.append_nil]
            have hbf : (ob.name == db.name) = false := by
              cases hbq : (ob.name == db.name)
              · rfl
              · exfalso
                have heq : ob.name = db.name := beq_iff_eq.mp hbq
                rw [← heq] at hdf
                rw [hko] at hdf
                exact Bool.noConfusion hdf
            have hpre2 : appendDest (some db) (ob :: dedupAux m [ob.name.getD ""]) =
                ob :: (dedupAux m [ob.name.getD ""] ++ [db]) :=
              hpush2 _ htall hbf
            rw [hpre2]
            have hd2 : dedupAux (ob :: (dedupAux m [ob.name.getD ""] ++ [db])) [] =
                ob :: dedupAux (dedupAux m [ob.name.getD ""] ++ [db])
                  [ob.name.getD ""] := by
              simp [dedupAux, hk]
            rw [hd2, dedupAux_append, hfix]
            have hX2 : dedupAux [db]
                (seenAfter (dedupAux m [ob.name.getD ""]) [ob.name.getD ""]) = [] := by
              rw [dedupAux_single]
              simp [keepLoc, hdf]
            rw [hX2, List.append_nil]
        · have hd1 : dedupAux (ob :: (m ++ [db])) [] = dedupAux (m ++ [db]) [] := by
            simp [dedupAux, hk]
          rw [hd1, dedupAux_append m [db] []]
          have hmF : ∀ x ∈ dedupAux m [], interFilter (some ob) (some db) x = true :=
            fun x hx => hm x (mem_dedupAux _ _ hx).1
          have htall : ∀ x ∈ dedupAux m [], x.name ≠ db.name :=
            fun x hx => hallm x (mem_dedupAux _ _ hx).1
          have hfF : (dedupAux m [] ++ dedupAux [db] (seenAfter m [])).filter
              (interFilter (some ob) (some db)) = dedupAux m [] :=
            hfsplit _ _ hmF (hXel _)
          rw [hfF, hpre0]
          have hob_nt : truthyName ob.name = false := by
            have h0 := bool_eq_false hk
            simpa [keepLoc] using h0
          by_cases hbe : (ob.name == db.name) = true
          · have hdb_nt : truthyName db.name = false := by
              rw [← beq_iff_eq.mp hbe]
              exact hob_nt
            have hX1 : dedupAux [db] (seenAfter m []) = [] := by
              rw [dedupAux_single]
              simp [keepLoc, hdb_nt]
            rw [hX1, List.append_nil]
            cases ht : dedupAux m [] with
            | nil =>
              have hpre2 : appendDest (some db) (ob :: ([] : List RawLoc)) = [ob] :=
                appendDest_merge db [ob] ob rfl hbe
              rw [hpre2]
              simp [dedupAux, hk]
            | cons y t' =>
              have htall2 : ∀ x ∈ y :: t', x.name ≠ db.name := by
                rw [ht] at htall
                exact htall
              have hpre2 : appendDest (some db) (ob :: (y :: t')) =
                  ob :: ((y :: t') ++ [db]) := by
                have hp : ∀ lp, (ob :: (y :: t')).getLast? = some lp →
                    (lp.name == db.name) = false := by
                  intro lp hlp
                  rcases getLast?_cons_cases hlp with ⟨hm0, hlpx⟩ | hlp2
                  · exact absurd hm0 (by simp)
                  · exact beq_eq_false_iff_ne.mpr (htall2 lp hlp2)
                rw [appendDest_push db _ hp, List.cons_append]
              rw [hpre2]
              have hd2 : dedupAux (ob :: ((y :: t') ++ [db])) [] =
                  dedupAux ((y :: t') ++ [db]) [] := by
                simp [dedupAux, hk]
              rw [hd2, dedupAux_append]
              have hfixt : dedupAux (y :: t') [] = y :: t' := by
                have h0 := dedupAux_fixed_of_dedup m [] [] (by simp)
                rw [ht] at h0
                exact h0
              rw [hfixt]
              have hX2 : dedupAux [db] (seenAfter (y :: t') []) = [] := by
                rw [dedupAux_single]
                simp [keepLoc, hdb_nt]
              rw [hX2, List.append_nil]
          · have hbf : (ob.name == db.name) = false := bool_eq_false hbe
            have hpre2 : appendDest (some db) (ob :: dedupAux m []) =
                ob :: (dedupAux m [] ++ [db]) :=
              hpush2 _ htall hbf
            rw [hpre2]
            have hd2 : dedupAux (ob :: (dedupAux m [] ++ [db])) [] =
                dedupAux (dedupAux m [] ++ [db]) [] := by
              simp [dedupAux, hk]
            rw [hd2, dedupAux_append, dedupAux_fixed_of_dedup m [] [] (by simp)]
            by_cases htr : truthyName db.name = true
            · have h1 : dedupAux [db] (seenAfter m []) = [db] := by
                rw [dedupAux_single, if_pos ((keepLoc_iff _ _).mpr ⟨htr,
                  key_not_in_seenAfter htr m [] (by simp) fun x hx _ => hallm x hx⟩)]
              have h2 : dedupAux [db] (seenAfter (dedupAux m []) []) = [db] := by
                rw [dedupAux_single, if_pos ((keepLoc_iff _ _).mpr ⟨htr,
                  key_not_in_seenAfter htr _ [] (by simp) fun x hx _ => htall x hx⟩)]
              rw [h1, h2]
            · have hdf : truthyName db.name = false := bool_eq_false htr
              have h1 : dedupAux [db] (seenAfter m []) = [] := by
                rw [dedupAux_single]
                simp [keepLoc, hdf]
              have h2 : dedupAux [db] (seenAfter (dedupAux m []) []) = [] := by
                rw [dedupAux_single]
                simp [keepLoc, hdf]
              rw [h1, h2]

/-- C9: the pre-save route rebuild is idempotent — feeding a successfully
rebuilt route back in as the raw `route` field (which is what a re-save of
the document presents to the hook) rebuilds exactly the same route.
Determinism is definitional in this embedding: the rebuild is a pure
function of origin, destination and the intermediate candidate list. -/
theorem rebuild_idempotent (o d : Option RawLoc) (ints : List (Option RawLoc))
    (r : List RawLoc) (hr : rebuildRoute o d ints = .ok r) :
    rebuildRoute o d (r.map some) = .ok r := by
  obtain ⟨ps, hps, hrr⟩ := rebuildRoute_ok hr
  unfold rebuildRoute
  rw [toPlain_map_some]
  simp only [Except.map, Except.ok.injEq]
  subst hrr
  exact rebuild_core_idem o d (ps.filter (interFilter o d))
    fun x hx => List.of_mem_filter hx

/-- Witness for C9 at a concrete origin/destination/intermediate input. -/
theorem rebuild_idempotent_witness :
    rebuildRoute (some locA) (some locC) [some locB] = .ok [locA, locB, locC] ∧
    rebuildRoute (some locA) (some locC) ([locA, locB, locC].map some) =
      .ok [locA, locB, locC] :=
  ⟨rfl, rebuild_idempotent (some locA) (some locC) [some locB] [locA, locB, locC] rfl⟩
